import Mathlib

/-!
Verification of PyTransit's `LegendreBaseline` (src/lpf/baselines/legendrebaseline.py)
and `TabulatedFilter` (pytransit/contamination/filter.py) against their
natural-language specification.

Numeric arrays are modelled as `List ℚ`: every operation involved (mean,
subtraction, division, the Legendre recurrence, dot products) is a field
operation, so rationals give an exact, decidable shallow embedding of the
floating-point pipeline.  Division by zero in ℚ yields 0 (Lean convention);
in numpy it yields NaN with a warning, and we only rely on the ℚ model where
the divisor is nonzero, or for purely structural facts (shapes, absence of
an error path).
-/

namespace PyTransit

/-- `t.mean()` for a numpy array: sum divided by length (0 for the empty
array in ℚ; numpy would return NaN there, we never rely on that case). -/
def mean (t : List ℚ) : ℚ := t.sum / t.length

/-- `self.mtimes = [t - t.mean() for t in self.times]`: each light curve's
times, mean-centered with its own mean. -/
def centered (times : List (List ℚ)) : List (List ℚ) :=
  times.map (fun t => t.map (fun x => x - mean t))

/-- `a.ptp()`: max minus min of an array (peak-to-peak).  On the empty list
both folds return the default head 0, giving 0; numpy raises there, and no
claim exercises that case. -/
def ptp (l : List ℚ) : ℚ := l.foldl max (l.headD 0) - l.foldl min (l.headD 0)

/-- `self.windows = window = concatenate(self.mtimes).ptp()`: the single
shared window, the peak-to-peak of the concatenation of all mean-centered
time arrays. -/
def window (times : List (List ℚ)) : ℚ := ptp (centered times).flatten

/-- `self.mtimes = [t / window for t in self.mtimes]`: every centered array
divided by the one shared window. -/
def mtimes (times : List (List ℚ)) : List (List ℚ) :=
  (centered times).map (fun t => t.map (fun x => x / window times))

/-- The classical Legendre recurrence used by `numpy.polynomial.legendre.legvander`:
`v[0] = 1`, `v[1] = x`, `v[i] = (v[i-1]*x*(2i-1) - v[i-2]*(i-1))/i`. -/
def legRec (x : ℚ) : ℕ → ℚ
  | 0 => 1
  | 1 => x
  | n + 2 => ((2 * (n + 2) - 1) * x * legRec x (n + 1) - (n + 1) * legRec x n) / (n + 2)

/-- `legvander(t, deg)`: the pseudo-Vandermonde matrix of the Legendre basis,
one row per sample point, columns = degrees `0..deg`. -/
def legvander (t : List ℚ) (deg : ℕ) : List (List ℚ) :=
  t.map (fun x => (List.range (deg + 1)).map (legRec x))

/-- `self.legs = [legvander(t, self.nlegendre) for t in self.mtimes]`: the whole
basis-construction pipeline of `_init_p_baseline` (center, shared window,
normalize, Legendre-Vandermonde). -/
def setupLegs (times : List (List ℚ)) (deg : ℕ) : List (List (List ℚ)) :=
  (mtimes times).map (fun t => legvander t deg)

/-- Dot product of two coefficient/basis vectors (`@` on 1-D arrays). -/
def dot (a b : List ℚ) : ℚ := (List.zipWith (· * ·) a b).sum

/-- `pv[self._sl_bl]`: the baseline block's slice of a parameter vector.
Modelled from the spec: the block registry (`self.ps`, an external collaborator
not under src/) guarantees the handle's `.slice` is the contiguous absolute
range of length `nlc*(nlegendre+1)` starting at `.start`; Python slicing
truncates silently when the vector is shorter. -/
def blSlice (start len : ℕ) (pv : List ℚ) : List ℚ := (pv.drop start).take len

/-- `bl[itr*(nlegendre+1):(itr+1)*(nlegendre+1)]`: curve `itr`'s coefficient
segment (intercept followed by `nlegendre` polynomial coefficients). -/
def coefSeg (deg itr : ℕ) (bl : List ℚ) : List ℚ :=
  (bl.drop (itr * (deg + 1))).take (deg + 1)

/-- `seg @ legs[itr].T`: one baseline value per time point of the curve. -/
def curveBaseline (seg : List ℚ) (legm : List (List ℚ)) : List ℚ :=
  legm.map (fun row => dot seg row)

/-- One output row of `baseline` for one parameter vector `pv`: slice out the
baseline block, then for each curve scatter `seg @ legs[itr].T` into that
curve's slice of the concatenated time axis.  Modelled from the spec:
`self.lcslices` (set by code outside src/) is the per-curve index range into
the flattened time array, consecutive and in curve order, so the scattered
row is the concatenation of the per-curve products. -/
def baselineRow (deg start : ℕ) (legsAll : List (List (List ℚ))) (pv : List ℚ) :
    List ℚ :=
  let bl := blSlice start (legsAll.length * (deg + 1)) pv
  (legsAll.enum.map (fun p => curveBaseline (coefSeg deg p.1 bl) p.2)).flatten

/-- `baseline(pvp)` on an already 2-D parameter batch: one output row per
parameter row. -/
def baselineBatch (deg start : ℕ) (legsAll : List (List (List ℚ)))
    (pvp : List (List ℚ)) : List (List ℚ) :=
  pvp.map (baselineRow deg start legsAll)

/-- The argument of `baseline(pvp)` before `atleast_2d`: either a 1-D
parameter vector or a 2-D batch. -/
inductive PVInput where
  | one (pv : List ℚ)
  | many (pvp : List (List ℚ))

/-- `numpy.atleast_2d`: a 1-D vector becomes a single-row batch, a 2-D batch
is returned unchanged. -/
def atleast2d : PVInput → List (List ℚ)
  | .one pv => [pv]
  | .many pvp => pvp

/-- `baseline(pvp)` as called by users: `pvp = atleast_2d(pvp)` first. -/
def baseline (deg start : ℕ) (legsAll : List (List (List ℚ))) (i : PVInput) :
    List (List ℚ) :=
  baselineBatch deg start legsAll (atleast2d i)

/-- Full evaluation after setup on concrete times: build the bases, then
evaluate the batch. -/
def evaluate (times : List (List ℚ)) (deg start : ℕ) (i : PVInput) :
    List (List ℚ) :=
  baseline deg start (setupLegs times deg) i

/-- Structural form of the evaluation loop: walk the per-curve basis matrices,
consuming `deg+1` coefficients of the block slice per curve. -/
def blGo (deg : ℕ) (bl : List ℚ) : List (List (List ℚ)) → List ℚ
  | [] => []
  | legm :: rest => curveBaseline (bl.take (deg + 1)) legm ++ blGo deg (bl.drop (deg + 1)) rest

/-- `TabulatedFilter` (pytransit/contamination/filter.py): a filter defined by
tabulated wavelengths `wl` and transmission values `tm`. -/
structure TabulatedFilter where
  name : String
  wl : List ℚ
  tm : List ℚ

/-- `TabulatedFilter.sample(self, n)`: `return self.wl, self.tm` — the stored
arrays, with the argument `n` unused. -/
def TabulatedFilter.sample (f : TabulatedFilter) (_n : ℕ) : List ℚ × List ℚ :=
  (f.wl, f.tm)

/-- `numpy.linspace(a, b, n)` with endpoint: `n` evenly spaced points from `a`
to `b` (`[a]` for `n = 1`, empty for `n = 0`). -/
def linspace (a b : ℚ) : ℕ → List ℚ
  | 0 => []
  | 1 => [a]
  | n + 2 => (List.range (n + 2)).map (fun i : ℕ => a + (b - a) * (i : ℚ) / ((n : ℚ) + 1))

/-- The wavelength grid of the base class `Filter.sample(self, n)`:
`linspace(self.wl_min + 1e-5, self.wl_max - 1e-5, n)`. -/
def Filter.sampleWl (wlMin wlMax : ℚ) (n : ℕ) : List ℚ :=
  linspace (wlMin + 1 / 100000) (wlMax - 1 / 100000) n

end PyTransit

namespace PyTransit

theorem setupLegs_length (times : List (List ℚ)) (deg : ℕ) :
    (setupLegs times deg).length = times.length := by
  simp [setupLegs, mtimes, centered]

theorem mtimes_lengths (times : List (List ℚ)) :
    (mtimes times).map List.length = times.map List.length := by
  simp [mtimes, centered, List.map_map, Function.comp]

theorem coefSeg_succ (deg itr : ℕ) (bl : List ℚ) :
    coefSeg deg (itr + 1) bl = coefSeg deg itr (bl.drop (deg + 1)) := by
  simp [coefSeg, List.drop_drop, Nat.succ_mul]
  ring_nf

theorem enumFrom_blGo (deg : ℕ) (legsAll : List (List (List ℚ))) :
    ∀ (k : ℕ) (bl : List ℚ),
      ((List.enumFrom k legsAll).map
          (fun p => curveBaseline (coefSeg deg p.1 bl) p.2)).flatten
        = blGo deg (bl.drop (k * (deg + 1))) legsAll := by
  induction legsAll with
  | nil => intro k bl; rfl
  | cons legm rest ih =>
    intro k bl
    simp only [List.enumFrom_cons, List.map_cons, List.flatten_cons, blGo]
    congr 1
    rw [ih (k + 1) bl]
    congr 1
    rw [List.drop_drop]
    congr 1
    ring

theorem baselineRow_eq_blGo (deg start : ℕ) (legsAll : List (List (List ℚ)))
    (pv : List ℚ) :
    baselineRow deg start legsAll pv
      = blGo deg (blSlice start (legsAll.length * (deg + 1)) pv) legsAll := by
  unfold baselineRow List.enum
  rw [enumFrom_blGo deg legsAll 0]
  simp

theorem dot_replicate_zero (d : ℕ) (r : List ℚ) :
    dot (List.replicate d 0) r = 0 := by
  induction d generalizing r with
  | zero => simp [dot]
  | succ n ih =>
    cases r with
    | nil => simp [dot]
    | cons a r => simpa [dot, List.replicate_succ] using ih r

theorem dot_neutral (d : ℕ) (x : ℚ) :
    dot ((1 : ℚ) :: List.replicate d 0) ((List.range (d + 1)).map (legRec x)) = 1 := by
  rw [List.range_succ_eq_map, List.map_cons]
  have h : dot (List.replicate d (0 : ℚ))
      (((List.range d).map Nat.succ).map (legRec x)) = 0 := dot_replicate_zero _ _
  simp [dot] at h ⊢
  simpa [dot, legRec] using h

theorem curveBaseline_neutral (t : List ℚ) (deg : ℕ) :
    curveBaseline ((1 : ℚ) :: List.replicate deg 0) (legvander t deg)
      = List.replicate t.length 1 := by
  simp only [curveBaseline, legvander, List.map_map]
  rw [List.eq_replicate_iff]
  constructor
  · simp
  · intro b hb
    simp only [List.mem_map, Function.comp] at hb
    obtain ⟨x, _, hx⟩ := hb
    rw [← hx]
    exact dot_neutral deg x

theorem blGo_neutral (deg : ℕ) (ts : List (List ℚ)) :
    blGo deg ((List.replicate ts.length ((1 : ℚ) :: List.replicate deg 0)).flatten)
        (ts.map (fun t => legvander t deg))
      = List.replicate ((ts.map List.length).sum) 1 := by
  induction ts with
  | nil => simp [blGo]
  | cons t rest ih =>
    have hlen : ((1 : ℚ) :: List.replicate deg 0).length = deg + 1 := by simp
    simp only [List.length_cons, List.replicate_succ, List.flatten_cons, List.map_cons, blGo]
    rw [List.take_left' hlen, List.drop_left' hlen, curveBaseline_neutral, ih,
      List.sum_cons, List.replicate_add]

/-- C1: `evaluate` with a parameter row whose baseline block is
intercept 1 followed by `nlegendre` zero coefficients for every curve
returns a row that is exactly 1 at every time point. -/
theorem neutral_parameters_give_unit_baseline (deg start : ℕ)
    (times : List (List ℚ)) (pv : List ℚ)
    (h : blSlice start (times.length * (deg + 1)) pv
        = (List.replicate times.length ((1 : ℚ) :: List.replicate deg 0)).flatten) :
    evaluate times deg start (.one pv)
      = [List.replicate ((times.map List.length).sum) 1] := by
  simp only [evaluate, baseline, atleast2d, baselineBatch, List.map_cons, List.map_nil]
  rw [baselineRow_eq_blGo, setupLegs_length, h]
  have h2 : ((mtimes times).map List.length).sum = ((times.map List.length)).sum := by
    rw [mtimes_lengths]
  have h3 : (mtimes times).length = times.length := by
    simpa using congrArg List.length (mtimes_lengths times)
  rw [← h2, ← h3]
  rw [show setupLegs times deg = (mtimes times).map (fun t => legvander t deg) from rfl]
  rw [blGo_neutral deg (mtimes times)]

/-- C1 witness: two curves of three points each, degree 1, block offset 1. -/
theorem neutral_parameters_give_unit_baseline_witness :
    evaluate [[0, 1, 2], [10, 11, 12]] 1 1 (.one [99, 1, 0, 1, 0])
      = [List.replicate 6 1] := by
  have := neutral_parameters_give_unit_baseline 1 1 [[0, 1, 2], [10, 11, 12]]
    [99, 1, 0, 1, 0] (by norm_num [blSlice, List.replicate_succ])
  simpa using this

theorem legvander_row_shape (t : List ℚ) (deg : ℕ) (row : List ℚ)
    (hrow : row ∈ legvander t deg) :
    row.length = deg + 1 ∧ row.headD 0 = 1 := by
  simp only [legvander, List.mem_map] at hrow
  obtain ⟨x, _, hx⟩ := hrow
  subst hx
  constructor
  · simp
  · rw [List.range_succ_eq_map, List.map_cons]
    simp [legRec]

/-- C7: every per-curve basis matrix has one row per time point of that
curve, each row has `deg+1` columns, and column 0 is the constant 1. -/
theorem basis_matrix_shape_and_unit_first_column (times : List (List ℚ))
    (deg i : ℕ) (hi : i < times.length) :
    (setupLegs times deg).length = times.length ∧
    ((setupLegs times deg).getD i []).length = (times.getD i []).length ∧
    ∀ row ∈ (setupLegs times deg).getD i [],
      row.length = deg + 1 ∧ row.headD 0 = 1 := by
  refine ⟨setupLegs_length times deg, ?_, ?_⟩
  · have hi2 : i < (setupLegs times deg).length := by rwa [setupLegs_length]
    rw [List.getD_eq_getElem _ _ hi2, List.getD_eq_getElem _ _ hi]
    simp [setupLegs, mtimes, centered, legvander]
  · intro row hrow
    have hi2 : i < (setupLegs times deg).length := by rwa [setupLegs_length]
    rw [List.getD_eq_getElem _ _ hi2] at hrow
    simp only [setupLegs] at hrow
    rw [List.getElem_map] at hrow
    exact legvander_row_shape _ _ _ hrow

/-- C7 witness: two concrete curves at degree 2, checked at curve index 1. -/
theorem basis_matrix_shape_and_unit_first_column_witness :
    (1 < ([[0, 1, 2], [10, 11, 12]] : List (List ℚ)).length) ∧
    ((setupLegs [[0, 1, 2], [10, 11, 12]] 2).length = 2 ∧
     ((setupLegs [[0, 1, 2], [10, 11, 12]] 2).getD 1 []).length = 3 ∧
     ∀ row ∈ (setupLegs [[0, 1, 2], [10, 11, 12]] 2).getD 1 [],
       row.length = 2 + 1 ∧ row.headD 0 = 1) := by
  have h := basis_matrix_shape_and_unit_first_column [[0, 1, 2], [10, 11, 12]] 2 1
    (by norm_num)
  exact ⟨by norm_num, by simpa using h⟩

/-- C4: basis construction mean-centers each curve with its own mean and
divides every centered array by the single shared window (peak-to-peak of the
concatenated centered arrays); for curves `[0,1,2]` and `[10,11,12]` that
window is exactly 2. -/
theorem individual_centering_shared_window :
    (∀ times : List (List ℚ),
      mtimes times
        = times.map (fun t => t.map (fun x => (x - mean t) / window times))) ∧
    window [[0, 1, 2], [10, 11, 12]] = 2 := by
  constructor
  · intro times
    simp [mtimes, centered, List.map_map, Function.comp]
  · norm_num [window, centered, mean, ptp, max_def, min_def]

/-- C6: a 1-D parameter vector is auto-promoted by `atleast_2d` to a
single-row batch, so `evaluate` on it equals `evaluate` on the `(1, P)`
batch holding that vector as its only row. -/
theorem one_d_vector_equals_single_row_batch (times : List (List ℚ))
    (deg start : ℕ) (v : List ℚ) :
    evaluate times deg start (.one v) = evaluate times deg start (.many [v]) := rfl

/-- C10: `TabulatedFilter.sample` ignores its argument `n` and returns the
stored wavelength and transmission arrays unchanged, whereas the base
`Filter.sample` would return a freshly spaced grid of exactly `n` points. -/
theorem tabulated_sample_ignores_n (f : TabulatedFilter) (n m k : ℕ)
    (wlMin wlMax : ℚ) :
    TabulatedFilter.sample f n = TabulatedFilter.sample f m ∧
    TabulatedFilter.sample f n = (f.wl, f.tm) ∧
    (TabulatedFilter.sample f n).1.length = f.wl.length ∧
    (Filter.sampleWl wlMin wlMax k).length = k := by
  refine ⟨rfl, rfl, rfl, ?_⟩
  unfold Filter.sampleWl
  match k with
  | 0 => rfl
  | 1 => rfl
  | j + 2 =>
    unfold linspace
    rw [List.length_map, List.length_range]

/-- C9: the output of `evaluate` reads each parameter row only through the
baseline block's slice — two batches that agree on that slice of every row
give identical outputs. -/
theorem output_depends_only_on_block_slice (deg start : ℕ)
    (legsAll : List (List (List ℚ))) (pvp qvp : List (List ℚ))
    (h : List.Forall₂ (fun p q =>
        blSlice start (legsAll.length * (deg + 1)) p
          = blSlice start (legsAll.length * (deg + 1)) q) pvp qvp) :
    baseline deg start legsAll (.many pvp) = baseline deg start legsAll (.many qvp) := by
  simp only [baseline, atleast2d, baselineBatch]
  induction h with
  | nil => rfl
  | cons hpq _ ih =>
    simp only [List.map_cons]
    rw [ih]
    congr 1
    rw [baselineRow_eq_blGo, baselineRow_eq_blGo, hpq]

/-- C9 witness: two single-row batches disagreeing only outside the block
slice (offset 1, length 2). -/
theorem output_depends_only_on_block_slice_witness :
    List.Forall₂ (fun p q =>
        blSlice 1 ((setupLegs [[0, 1, 2]] 1).length * (1 + 1)) p
          = blSlice 1 ((setupLegs [[0, 1, 2]] 1).length * (1 + 1)) q)
      [[7, 1, 0, 3]] [[8, 1, 0, 4]] ∧
    baseline 1 1 (setupLegs [[0, 1, 2]] 1) (.many [[7, 1, 0, 3]])
      = baseline 1 1 (setupLegs [[0, 1, 2]] 1) (.many [[8, 1, 0, 4]]) := by
  have hf : List.Forall₂ (fun p q =>
        blSlice 1 ((setupLegs [[0, 1, 2]] 1).length * (1 + 1)) p
          = blSlice 1 ((setupLegs [[0, 1, 2]] 1).length * (1 + 1)) q)
      [([7, 1, 0, 3] : List ℚ)] [[8, 1, 0, 4]] := by
    refine List.Forall₂.cons ?_ List.Forall₂.nil
    norm_num [blSlice, setupLegs, mtimes, centered]
  exact ⟨hf, output_depends_only_on_block_slice 1 1 _ _ _ hf⟩

theorem dot_linear (a b : ℚ) (s1 : List ℚ) :
    ∀ (s2 row : List ℚ), s1.length = s2.length →
      dot (List.zipWith (fun x y => a * x + b * y) s1 s2) row
        = a * dot s1 row + b * dot s2 row := by
  induction s1 with
  | nil =>
    intro s2 row h
    have : s2 = [] := by
      cases s2 with
      | nil => rfl
      | cons _ _ => simp at h
    subst this
    simp [dot]
  | cons x s1 ih =>
    intro s2 row h
    cases s2 with
    | nil => simp at h
    | cons y s2 =>
      cases row with
      | nil => simp [dot]
      | cons r row =>
        have h2 : s1.length = s2.length := by simpa using h
        simp only [List.zipWith_cons_cons, dot, List.sum_cons] at *
        have := ih s2 row h2
        simp only [dot] at this
        rw [this]
        ring

theorem curveBaseline_linear (a b : ℚ) (s1 s2 : List ℚ)
    (legm : List (List ℚ)) (h : s1.length = s2.length) :
    curveBaseline (List.zipWith (fun x y => a * x + b * y) s1 s2) legm
      = List.zipWith (fun x y => a * x + b * y)
          (curveBaseline s1 legm) (curveBaseline s2 legm) := by
  induction legm with
  | nil => rfl
  | cons row rest ih =>
    simp only [curveBaseline, List.map_cons, List.zipWith_cons_cons] at *
    rw [ih, dot_linear a b s1 s2 row h]

theorem blGo_linear (deg : ℕ) (a b : ℚ) (legsAll : List (List (List ℚ))) :
    ∀ (bl1 bl2 : List ℚ), bl1.length = bl2.length →
      blGo deg (List.zipWith (fun x y => a * x + b * y) bl1 bl2) legsAll
        = List.zipWith (fun x y => a * x + b * y)
            (blGo deg bl1 legsAll) (blGo deg bl2 legsAll) := by
  induction legsAll with
  | nil => intro bl1 bl2 _; rfl
  | cons legm rest ih =>
    intro bl1 bl2 h
    simp only [blGo]
    rw [List.take_zipWith, List.drop_zipWith,
      curveBaseline_linear a b _ _ legm (by simp [h]),
      ih (bl1.drop (deg + 1)) (bl2.drop (deg + 1)) (by simp [h]),
      List.zipWith_append _ _ _ _ _ (by simp [curveBaseline])]

/-- C5: for fixed basis matrices, `evaluate` is linear in the parameter
vector: evaluating `a*p1 + b*p2` equals `a` times the evaluation of `p1`
plus `b` times the evaluation of `p2`, jointly in the intercept and all
polynomial coefficients. -/
theorem evaluate_linear_in_parameters (times : List (List ℚ)) (deg start : ℕ)
    (a b : ℚ) (p1 p2 : List ℚ) (h : p1.length = p2.length) :
    evaluate times deg start (.one (List.zipWith (fun x y => a * x + b * y) p1 p2))
      = List.zipWith (List.zipWith (fun x y => a * x + b * y))
          (evaluate times deg start (.one p1)) (evaluate times deg start (.one p2)) := by
  simp only [evaluate, baseline, atleast2d, baselineBatch, List.map_cons,
    List.map_nil, List.zipWith_cons_cons, List.zipWith_nil_right]
  rw [baselineRow_eq_blGo, baselineRow_eq_blGo, baselineRow_eq_blGo]
  have hs : blSlice start ((setupLegs times deg).length * (deg + 1))
        (List.zipWith (fun x y => a * x + b * y) p1 p2)
      = List.zipWith (fun x y => a * x + b * y)
          (blSlice start ((setupLegs times deg).length * (deg + 1)) p1)
          (blSlice start ((setupLegs times deg).length * (deg + 1)) p2) := by
    simp only [blSlice, List.take_zipWith, List.drop_zipWith]
  rw [hs, blGo_linear _ a b _ _ _ (by simp [blSlice, h])]

/-- C5 witness: one curve of three points, degree 1, scalars 2 and 3. -/
theorem evaluate_linear_in_parameters_witness :
    ([1, 0] : List ℚ).length = ([0, 1] : List ℚ).length ∧
    evaluate [[0, 1, 2]] 1 0
        (.one (List.zipWith (fun x y => 2 * x + 3 * y) [1, 0] [0, 1]))
      = List.zipWith (List.zipWith (fun x y => 2 * x + 3 * y))
          (evaluate [[0, 1, 2]] 1 0 (.one [1, 0]))
          (evaluate [[0, 1, 2]] 1 0 (.one [0, 1])) :=
  ⟨rfl, evaluate_linear_in_parameters [[0, 1, 2]] 1 0 2 3 [1, 0] [0, 1] rfl⟩

theorem mean_replicate (m : ℕ) (c : ℚ) : mean (List.replicate (m + 1) c) = c := by
  have hne : ((m : ℚ) + 1) ≠ 0 := by positivity
  simp only [mean, List.sum_replicate, List.length_replicate, nsmul_eq_mul]
  push_cast
  field_simp

theorem foldl_replicate_zero (f : ℚ → ℚ → ℚ) (h : f 0 0 = 0) :
    ∀ k : ℕ, (List.replicate k (0 : ℚ)).foldl f 0 = 0 := by
  intro k
  induction k with
  | zero => rfl
  | succ j ih => simpa [List.replicate_succ, h] using ih

theorem window_constant_curve (m : ℕ) (c : ℚ) :
    window [List.replicate (m + 1) c] = 0 := by
  have hc : centered [List.replicate (m + 1) c] = [List.replicate (m + 1) (0 : ℚ)] := by
    simp [centered, List.map_replicate, mean_replicate]
  rw [window, hc]
  simp only [List.flatten, List.append_nil, ptp, List.replicate_succ, List.headD_cons,
    List.foldl_cons, max_self, min_self]
  rw [foldl_replicate_zero max (by simp), foldl_replicate_zero min (by simp)]
  ring

/-- C2 counterexample: a single curve of one repeated timestamp gives a zero
window, yet basis construction raises nothing and still returns a full-shape
basis matrix (numpy's division by zero only warns and yields NaN normalized
times; no `DegenerateWindowError` check exists in the code). -/
theorem degenerate_window_not_raised_cex :
    window [[(5 : ℚ), 5, 5]] = 0 ∧
    (setupLegs [[(5 : ℚ), 5, 5]] 2).length = 1 ∧
    ∀ mat ∈ setupLegs [[(5 : ℚ), 5, 5]] 2,
      mat.length = 3 ∧ ∀ row ∈ mat, row.length = 3 := by
  refine ⟨?_, ?_, ?_⟩
  · norm_num [window, centered, mean, ptp, max_def, min_def]
  · simp [setupLegs, mtimes, centered]
  · intro mat hmat
    simp only [setupLegs, mtimes, centered, List.map_cons, List.map_nil,
      List.mem_singleton] at hmat
    subst hmat
    refine ⟨by simp [legvander], ?_⟩
    intro row hrow
    exact (legvander_row_shape _ _ _ hrow).1

/-- C2 amended: for any single curve of one repeated timestamp the window is
zero and basis construction still produces matrices of full shape
`(n_points, deg+1)` rather than failing. -/
theorem degenerate_window_produces_result (c : ℚ) (m deg : ℕ) :
    window [List.replicate (m + 1) c] = 0 ∧
    (setupLegs [List.replicate (m + 1) c] deg).length = 1 ∧
    ∀ mat ∈ setupLegs [List.replicate (m + 1) c] deg,
      mat.length = m + 1 ∧ ∀ row ∈ mat, row.length = deg + 1 := by
  refine ⟨window_constant_curve m c, by simp [setupLegs, mtimes, centered], ?_⟩
  intro mat hmat
  simp only [setupLegs, mtimes, centered, List.map_cons, List.map_nil,
    List.mem_singleton] at hmat
  subst hmat
  refine ⟨by simp [legvander], ?_⟩
  intro row hrow
  exact (legvander_row_shape _ _ _ hrow).1

/-- C3 counterexample: a parameter row with one more column than the
registered parameter-vector length (here 3 columns against P = 2) raises
nothing: `evaluate` returns an ordinary result, the extra entry ignored. -/
theorem extra_columns_no_error_cex :
    evaluate [[(0 : ℚ), 1, 2]] 1 0 (.one [1, 0, 99]) = [[1, 1, 1]] := by
  norm_num [evaluate, baseline, baselineBatch, baselineRow, atleast2d, setupLegs,
    mtimes, centered, mean, window, ptp, legvander, legRec, blSlice, coefSeg,
    curveBaseline, dot, List.enum, max_def, min_def, List.range_succ]

/-- C3 amended: `evaluate` performs no shape validation; a parameter row
longer than needed succeeds and returns exactly the result of the row
without the extra trailing entries. -/
theorem extra_parameters_silently_ignored (deg start : ℕ)
    (legsAll : List (List (List ℚ))) (pv extra : List ℚ)
    (h : start + legsAll.length * (deg + 1) ≤ pv.length) :
    baseline deg start legsAll (.one (pv ++ extra))
      = baseline deg start legsAll (.one pv) := by
  simp only [baseline, atleast2d, baselineBatch, List.map_cons, List.map_nil]
  rw [baselineRow_eq_blGo, baselineRow_eq_blGo]
  congr 1
  have h1 : start ≤ pv.length := le_trans (Nat.le_add_right _ _) h
  rw [blSlice, blSlice, List.drop_append_of_le_length h1,
    List.take_append_of_le_length]
  rw [List.length_drop]
  omega

/-- C3 amended witness: one curve, degree 1, block at offset 0 of length 2,
row `[1,0]` padded with an extra entry `99`. -/
theorem extra_parameters_silently_ignored_witness :
    (0 + (setupLegs [[(0 : ℚ), 1, 2]] 1).length * (1 + 1) ≤ ([1, 0] : List ℚ).length) ∧
    baseline 1 0 (setupLegs [[(0 : ℚ), 1, 2]] 1) (.one ([1, 0] ++ [99]))
      = baseline 1 0 (setupLegs [[(0 : ℚ), 1, 2]] 1) (.one [1, 0]) :=
  ⟨by simp [setupLegs, mtimes, centered],
   extra_parameters_silently_ignored 1 0 _ [1, 0] [99]
     (by simp [setupLegs, mtimes, centered])⟩

theorem le_foldl_max (l : List ℚ) : ∀ a : ℚ, a ≤ l.foldl max a := by
  induction l with
  | nil => intro a; simp
  | cons x xs ih => intro a; exact le_trans (le_max_left a x) (ih (max a x))

theorem mem_le_foldl_max (l : List ℚ) : ∀ x a : ℚ, x ∈ l → x ≤ l.foldl max a := by
  induction l with
  | nil => intro x a h; cases h
  | cons y ys ih =>
    intro x a h
    rcases List.mem_cons.mp h with rfl | hmem
    · exact le_trans (le_max_right a x) (le_foldl_max ys (max a x))
    · exact ih x (max a y) hmem

theorem foldl_min_le (l : List ℚ) : ∀ a : ℚ, l.foldl min a ≤ a := by
  induction l with
  | nil => intro a; simp
  | cons x xs ih => intro a; exact le_trans (ih (min a x)) (min_le_left a x)

theorem foldl_min_le_mem (l : List ℚ) : ∀ x a : ℚ, x ∈ l → l.foldl min a ≤ x := by
  induction l with
  | nil => intro x a h; cases h
  | cons y ys ih =>
    intro x a h
    rcases List.mem_cons.mp h with rfl | hmem
    · exact le_trans (foldl_min_le ys (min a x)) (min_le_right a x)
    · exact ih x (min a y) hmem

theorem sum_lt_zero_of_all_neg (l : List ℚ) :
    l ≠ [] → (∀ x ∈ l, x < 0) → l.sum < 0 := by
  induction l with
  | nil => intro hne; cases hne rfl
  | cons x xs ih =>
    intro _ h
    cases xs with
    | nil => simpa using h x (by simp)
    | cons y ys =>
      have hx := h x (by simp)
      have hxs : (y :: ys).sum < 0 :=
        ih (by simp) (fun z hz => h z (List.mem_cons_of_mem _ hz))
      simp only [List.sum_cons] at *
      linarith

theorem sum_gt_zero_of_all_pos (l : List ℚ) :
    l ≠ [] → (∀ x ∈ l, 0 < x) → 0 < l.sum := by
  induction l with
  | nil => intro hne; cases hne rfl
  | cons x xs ih =>
    intro _ h
    cases xs with
    | nil => simpa using h x (by simp)
    | cons y ys =>
      have hx := h x (by simp)
      have hxs : 0 < (y :: ys).sum :=
        ih (by simp) (fun z hz => h z (List.mem_cons_of_mem _ hz))
      simp only [List.sum_cons] at *
      linarith

theorem exists_nonneg_of_sum_zero (l : List ℚ) (hne : l ≠ []) (hs : l.sum = 0) :
    ∃ x ∈ l, 0 ≤ x := by
  by_contra hcon
  push_neg at hcon
  exact absurd hs (ne_of_lt (sum_lt_zero_of_all_neg l hne hcon))

theorem exists_nonpos_of_sum_zero (l : List ℚ) (hne : l ≠ []) (hs : l.sum = 0) :
    ∃ x ∈ l, x ≤ 0 := by
  by_contra hcon
  push_neg at hcon
  exact absurd hs (ne_of_gt (sum_gt_zero_of_all_pos l hne hcon))

theorem sum_map_sub_const (t : List ℚ) (c : ℚ) :
    (t.map (fun x => x - c)).sum = t.sum - (t.length : ℚ) * c := by
  induction t with
  | nil => simp
  | cons x xs ih =>
    simp only [List.map_cons, List.sum_cons, List.length_cons]
    push_cast
    rw [ih]
    ring

theorem centered_sum_zero (t : List ℚ) (hne : t ≠ []) :
    (t.map (fun x => x - mean t)).sum = 0 := by
  have hlen : (t.length : ℚ) ≠ 0 :=
    Nat.cast_ne_zero.mpr (List.length_pos.mpr hne).ne'
  rw [sum_map_sub_const, mean]
  field_simp

/-- C8: whenever the shared window is nonzero, every normalized time lies in
`[-1, 1]`: each curve's centered times sum to zero, so each centered value is
bounded in absolute value by the span of the concatenated centered arrays,
which is exactly the divisor. -/
theorem normalized_times_within_unit_interval (times : List (List ℚ))
    (hw : window times ≠ 0) :
    ∀ t ∈ mtimes times, ∀ x ∈ t, -1 ≤ x ∧ x ≤ 1 := by
  intro t ht x hx
  simp only [mtimes, List.mem_map] at ht
  obtain ⟨ct, hctmem, rfl⟩ := ht
  simp only [List.mem_map] at hx
  obtain ⟨c, hcmem, rfl⟩ := hx
  simp only [centered, List.mem_map] at hctmem
  obtain ⟨t0, ht0, rfl⟩ := hctmem
  have ht0ne : t0 ≠ [] := by
    intro hnil
    rw [hnil] at hcmem
    simp at hcmem
  have hctL : t0.map (fun x => x - mean t0) ∈ centered times :=
    List.mem_map_of_mem _ ht0
  have hmemL : ∀ z ∈ t0.map (fun x => x - mean t0), z ∈ (centered times).flatten :=
    fun z hz => List.mem_flatten.mpr ⟨_, hctL, hz⟩
  obtain ⟨p, hpmem, hp⟩ :=
    exists_nonneg_of_sum_zero _ (by simpa using ht0ne) (centered_sum_zero t0 ht0ne)
  obtain ⟨q, hqmem, hq⟩ :=
    exists_nonpos_of_sum_zero _ (by simpa using ht0ne) (centered_sum_zero t0 ht0ne)
  set L := (centered times).flatten with hL
  set M := L.foldl max (L.headD 0) with hM
  set mn := L.foldl min (L.headD 0) with hmn
  have hwdef : window times = M - mn := rfl
  have hM0 : (0 : ℚ) ≤ M := le_trans hp (mem_le_foldl_max L p _ (hmemL p hpmem))
  have hmn0 : mn ≤ 0 := le_trans (foldl_min_le_mem L q _ (hmemL q hqmem)) hq
  have hcM : c ≤ M := mem_le_foldl_max L c _ (hmemL c hcmem)
  have hmnc : mn ≤ c := foldl_min_le_mem L c _ (hmemL c hcmem)
  have hwpos : 0 < M - mn := by
    rcases lt_or_eq_of_le (by linarith : (0 : ℚ) ≤ M - mn) with h | h
    · exact h
    · exact absurd (hwdef.trans h.symm) hw
  constructor
  · rw [hwdef, le_div_iff₀ hwpos]
    linarith
  · rw [hwdef, div_le_one hwpos]
    linarith

/-- C8 witness: two concrete curves with window 2. -/
theorem normalized_times_within_unit_interval_witness :
    (window [[(0 : ℚ), 1, 2], [10, 11, 12]] ≠ 0) ∧
    ∀ t ∈ mtimes [[(0 : ℚ), 1, 2], [10, 11, 12]], ∀ x ∈ t, -1 ≤ x ∧ x ≤ 1 :=
  ⟨by norm_num [window, centered, mean, ptp, max_def, min_def],
   normalized_times_within_unit_interval _
     (by norm_num [window, centered, mean, ptp, max_def, min_def])⟩

end PyTransit
